import Mathlib

/-!
Verification of the worker thread pool in `src/Rust/tcp_listener/src/lib.rs`.

The pool is embedded as a labelled transition system.  A `PoolState` records
the channel buffer (a FIFO list of jobs), whether the sender half of the
channel is still alive (`senderOpen`, the `sender : Option<Sender<Job>>`
field of `ThreadPool`), the workers with their loop status, the mutex poison
flag of the `Arc<Mutex<Receiver<Job>>>`, and the progress of `Drop for
ThreadPool`.  Ghost history fields (`submitted`, `delivered`, `finished`,
`panickedJobs`) record the order of events so that FIFO and exactly-once
properties can be stated.

A worker thread runs `loop { let message = receiver.lock().unwrap().recv();
match message { Ok(job) => job(), Err(_) => break } }`.  The `MutexGuard`
returned by `lock().unwrap()` is a temporary of the `let` statement: it is
dropped when `recv()` returns, before `job()` runs.  Accordingly a worker is
`locked` exactly while it sits inside `lock().unwrap().recv()`, and the
transition delivering a job releases the lock in the same step, so a `busy`
worker never holds the mutex.
-/

/-- A job handed to `ThreadPool::execute`: a boxed closure, identified here by
an id, together with whether running it panics. -/
structure Job where
  id : Nat
  panics : Bool
deriving DecidableEq

/-- Status of a worker's thread inside the loop spawned by `Worker::new`. -/
inductive WStatus where
  /-- At the top of the loop, not holding the mutex. -/
  | idle
  /-- Inside `receiver.lock().unwrap().recv()`, holding the mutex. -/
  | locked
  /-- Executing `job()`; the guard temporary was dropped when `recv` returned. -/
  | busy (j : Job)
  /-- The loop hit `Err(_) => break` and the thread function returned. -/
  | done
  /-- The thread died unwinding from a panic. -/
  | dead
deriving DecidableEq

/-- A `Worker`: numeric id, the handle id of the shared receiver it was wired
to (`Arc::clone(&receiver)`), its loop status, and whether its
`thread : Option<JoinHandle<()>>` is still `Some`. -/
structure Worker where
  id : Nat
  rx : Nat
  status : WStatus
  hasThread : Bool
deriving DecidableEq

/-- Progress of `Drop for ThreadPool`. -/
inductive Phase where
  /-- The pool is live: `drop` has not run. -/
  | live
  /-- The sender has been taken and dropped; workers `0..i-1` have been
  joined by the `for worker in &mut self.workers` loop. -/
  | closing (i : Nat)
  /-- `thread.join().unwrap()` hit a panicked thread after joining `i`
  workers, so `drop` itself panicked. -/
  | aborted (i : Nat)
deriving DecidableEq

/-- Global state: pool fields, channel contents, mutex poison bit, and ghost
histories of submissions, deliveries, completions, and job panics. -/
structure PoolState where
  workers : List Worker
  senderOpen : Bool
  queue : List Job
  poisoned : Bool
  phase : Phase
  submitted : List Job
  delivered : List Job
  finished : List Job
  panickedJobs : List Job
deriving DecidableEq

/-- A fresh worker as built by `Worker::new(id, Arc::clone(&receiver))`:
thread spawned and idle at the top of its loop, join handle present. -/
def mkWorker (id : Nat) (rx : Nat) : Worker :=
  { id := id, rx := rx, status := WStatus.idle, hasThread := true }

/-- The state right after `ThreadPool::new(size)` returns (for positive
`size`): one channel (handle id `0`), `size` idle workers with ids
`0..size-1` all cloned onto receiver `0`, empty queue, sender alive. -/
def initState (size : Nat) : PoolState :=
  { workers := (List.range size).map (fun i => mkWorker i 0)
    senderOpen := true
    queue := []
    poisoned := false
    phase := Phase.live
    submitted := []
    delivered := []
    finished := []
    panickedJobs := [] }

/-- Embedding of `ThreadPool::new`: `assert!(size > 0)` panics (modelled as
`Except.error`) when `size = 0`, otherwise the pool is constructed. -/
def ThreadPool.new (size : Nat) : Except String PoolState :=
  if 0 < size then Except.ok (initState size)
  else Except.error "assertion failed: size > 0"

/-- A worker thread has terminated (its closure, holding one `Arc` clone of
the receiver, has been dropped). -/
def workerTerminated : WStatus → Bool
  | WStatus.done => true
  | WStatus.dead => true
  | _ => false

/-- The receiver is fully dropped once every worker thread has exited, since
the worker closures hold the only surviving `Arc` clones after `new` returns. -/
def receiverDropped (s : PoolState) : Bool :=
  s.workers.all (fun w => workerTerminated w.status)

/-- The two panics `ThreadPool::execute` can raise. -/
inductive ExecPanic where
  /-- `self.sender.as_ref().unwrap_or_else(...)` found `None`. -/
  | senderGone
  /-- `.send(job)` returned `Err` because the receiver was dropped. -/
  | sendFailed
deriving DecidableEq

/-- Embedding of `ThreadPool::execute`: panics (as `Except.error`) when the
sender has been taken, or when `send` fails because no receiver remains;
otherwise the job is enqueued at the tail of the channel. -/
def ThreadPool.execute (s : PoolState) (j : Job) : Except ExecPanic PoolState :=
  if s.senderOpen then
    if receiverDropped s then Except.error ExecPanic.sendFailed
    else Except.ok { s with
      queue := s.queue ++ [j]
      submitted := s.submitted ++ [j] }
  else Except.error ExecPanic.senderGone

/-- Whether a worker currently holds the receiver mutex. -/
def holdsLock (w : Worker) : Bool :=
  w.status = WStatus.locked

/-- Jobs currently being executed by the workers of a list. -/
def inFlightL (ws : List Worker) : List Job :=
  ws.filterMap (fun w =>
    match w.status with
    | WStatus.busy j => some j
    | _ => none)

/-- Jobs currently being executed somewhere in the pool. -/
def inFlight (s : PoolState) : List Job :=
  inFlightL s.workers

/-- Transition labels; worker labels carry the worker's index. -/
inductive Label where
  | submit (j : Job)
  | acquire (i : Nat)
  | lockPoisonPanic (i : Nat)
  | recvOk (i : Nat) (j : Job)
  | recvClosed (i : Nat)
  | finish (i : Nat) (j : Job)
  | jobPanic (i : Nat) (j : Job)
  | closeSender
  | joinOk (i : Nat)
  | joinPanicked (i : Nat)
deriving DecidableEq

/-- Small-step semantics of the pool.  Worker `i` is addressed by splitting
the worker list as `pre ++ w :: post` with `pre.length = i`. -/
inductive Step : PoolState → Label → PoolState → Prop where
  /-- A caller runs `pool.execute(f)` while the pool is live and the call
  succeeds. -/
  | submit (s s' : PoolState) (j : Job) :
      s.phase = Phase.live →
      ThreadPool.execute s j = Except.ok s' →
      Step s (Label.submit j) s'
  /-- An idle worker's `receiver.lock().unwrap()` succeeds: the mutex is
  free and not poisoned. -/
  | acquire (s : PoolState) (pre post : List Worker) (w : Worker) :
      s.workers = pre ++ w :: post →
      w.status = WStatus.idle →
      (∀ w' ∈ s.workers, w'.status ≠ WStatus.locked) →
      s.poisoned = false →
      Step s (Label.acquire pre.length)
        { s with workers := pre ++ { w with status := WStatus.locked } :: post }
  /-- An idle worker's `lock().unwrap()` panics because the mutex is
  poisoned, killing that worker's thread. -/
  | lockPoison (s : PoolState) (pre post : List Worker) (w : Worker) :
      s.workers = pre ++ w :: post →
      w.status = WStatus.idle →
      (∀ w' ∈ s.workers, w'.status ≠ WStatus.locked) →
      s.poisoned = true →
      Step s (Label.lockPoisonPanic pre.length)
        { s with workers := pre ++ { w with status := WStatus.dead } :: post }
  /-- `recv()` returns `Ok(job)` with the head of the queue; the guard
  temporary is dropped as the statement ends, so the worker enters `busy`
  with the mutex released. -/
  | recvOk (s : PoolState) (pre post : List Worker) (w : Worker) (j : Job)
      (rest : List Job) :
      s.workers = pre ++ w :: post →
      w.status = WStatus.locked →
      s.queue = j :: rest →
      Step s (Label.recvOk pre.length j)
        { s with
          workers := pre ++ { w with status := WStatus.busy j } :: post
          queue := rest
          delivered := s.delivered ++ [j] }
  /-- `recv()` returns `Err` only when the sender has been dropped and the
  buffer is empty; the worker breaks out of its loop and returns. -/
  | recvClosed (s : PoolState) (pre post : List Worker) (w : Worker) :
      s.workers = pre ++ w :: post →
      w.status = WStatus.locked →
      s.senderOpen = false →
      s.queue = [] →
      Step s (Label.recvClosed pre.length)
        { s with workers := pre ++ { w with status := WStatus.done } :: post }
  /-- `job()` returns normally; the worker loops back to the top. -/
  | finish (s : PoolState) (pre post : List Worker) (w : Worker) (j : Job) :
      s.workers = pre ++ w :: post →
      w.status = WStatus.busy j →
      j.panics = false →
      Step s (Label.finish pre.length j)
        { s with
          workers := pre ++ { w with status := WStatus.idle } :: post
          finished := s.finished ++ [j] }
  /-- `job()` panics; the unwinding thread poisons exactly the mutexes whose
  guards it still holds (none, since the guard died when `recv` returned),
  and the worker's thread terminates. -/
  | jobPanic (s : PoolState) (pre post : List Worker) (w : Worker) (j : Job) :
      s.workers = pre ++ w :: post →
      w.status = WStatus.busy j →
      j.panics = true →
      Step s (Label.jobPanic pre.length j)
        { s with
          workers := pre ++ { w with status := WStatus.dead } :: post
          poisoned := s.poisoned || holdsLock w
          panickedJobs := s.panickedJobs ++ [j] }
  /-- First statement of `Drop for ThreadPool`: `drop(self.sender.take())`. -/
  | closeSender (s : PoolState) :
      s.phase = Phase.live →
      Step s Label.closeSender
        { s with senderOpen := false, phase := Phase.closing 0 }
  /-- The join loop of `drop` reaches worker `i`, takes its handle and
  `join().unwrap()` succeeds once that thread has returned. -/
  | joinOk (s : PoolState) (pre post : List Worker) (w : Worker) :
      s.workers = pre ++ w :: post →
      s.phase = Phase.closing pre.length →
      w.status = WStatus.done →
      w.hasThread = true →
      Step s (Label.joinOk pre.length)
        { s with
          workers := pre ++ { w with hasThread := false } :: post
          phase := Phase.closing (pre.length + 1) }
  /-- The join loop reaches a worker whose thread panicked: `join()` returns
  `Err` and `unwrap()` makes `drop` itself panic. -/
  | joinPanicked (s : PoolState) (pre post : List Worker) (w : Worker) :
      s.workers = pre ++ w :: post →
      s.phase = Phase.closing pre.length →
      w.status = WStatus.dead →
      w.hasThread = true →
      Step s (Label.joinPanicked pre.length)
        { s with
          workers := pre ++ { w with hasThread := false } :: post
          phase := Phase.aborted pre.length }

/-- A finite execution, recording its labels in order. -/
inductive Trace : PoolState → List Label → PoolState → Prop where
  | nil (s : PoolState) : Trace s [] s
  | cons (s s' s'' : PoolState) (l : Label) (tr : List Label) :
      Step s l s' → Trace s' tr s'' → Trace s (l :: tr) s''

/-- States reachable from a successful `ThreadPool::new(n)`. -/
def Reachable (n : Nat) (s : PoolState) : Prop :=
  ∃ s₀ tr, ThreadPool.new n = Except.ok s₀ ∧ Trace s₀ tr s

/-- The `Drop` implementation has run to completion: the sender is dropped
and the join loop has passed every worker. -/
def dropComplete (s : PoolState) : Prop :=
  s.phase = Phase.closing s.workers.length

/-- Number of workers already joined by `drop`. -/
def joinedCount (s : PoolState) : Nat :=
  match s.phase with
  | Phase.live => 0
  | Phase.closing i => i
  | Phase.aborted i => i

/-- Indices of the successful joins of a label sequence, in order. -/
def joinLabels (tr : List Label) : List Nat :=
  tr.filterMap (fun l =>
    match l with
    | Label.joinOk i => some i
    | _ => none)

/-- The worker whose own thread performs a label, if any (submission, close
and joins are performed by the pool's owner thread instead). -/
def workerActed : Label → Option Nat
  | Label.acquire i => some i
  | Label.lockPoisonPanic i => some i
  | Label.recvOk i _ => some i
  | Label.recvClosed i => some i
  | Label.finish i _ => some i
  | Label.jobPanic i _ => some i
  | _ => none

/-- Status of worker `i`. -/
def statusAt (s : PoolState) (i : Nat) : Option WStatus :=
  s.workers[i]?.map Worker.status

/-- The worker-loop state machine of the spec: Running (idle → locked →
busy → idle) with exits locked → done (channel closed) and busy → dead
(job panicked), plus idle → dead for a poisoned lock. -/
def workerMachineStep (a b : WStatus) : Prop :=
  (a = WStatus.idle ∧ b = WStatus.locked) ∨
  (∃ j, a = WStatus.locked ∧ b = WStatus.busy j) ∨
  (a = WStatus.locked ∧ b = WStatus.done) ∨
  (∃ j, a = WStatus.busy j ∧ b = WStatus.idle) ∨
  (∃ j, a = WStatus.busy j ∧ b = WStatus.dead) ∨
  (a = WStatus.idle ∧ b = WStatus.dead)

/-- Workers whose thread is still running: the pool's remaining capacity. -/
def aliveCount (s : PoolState) : Nat :=
  (s.workers.filter (fun w => !workerTerminated w.status)).length

/-! ## Basic lemmas about the embedding -/

/-- Inversion of a successful `execute`: the sender was alive, some receiver
remained, and the only change is the job appended to the queue and to the
submission history. -/
theorem execute_ok_inv {s s' : PoolState} {j : Job}
    (h : ThreadPool.execute s j = Except.ok s') :
    s.senderOpen = true ∧ receiverDropped s = false ∧
      s' = { s with queue := s.queue ++ [j], submitted := s.submitted ++ [j] } := by
  unfold ThreadPool.execute at h
  split at h
  · split at h
    · cases h
    · cases h; simp_all
  · cases h

theorem inFlightL_append (l₁ l₂ : List Worker) :
    inFlightL (l₁ ++ l₂) = inFlightL l₁ ++ inFlightL l₂ := by
  simp [inFlightL]

theorem inFlightL_cons_busy {w : Worker} {j : Job} (h : w.status = WStatus.busy j)
    (l : List Worker) : inFlightL (w :: l) = j :: inFlightL l := by
  simp [inFlightL, List.filterMap_cons, h]

theorem inFlightL_cons_idle {w : Worker} (h : w.status = WStatus.idle)
    (l : List Worker) : inFlightL (w :: l) = inFlightL l := by
  simp [inFlightL, List.filterMap_cons, h]

theorem inFlightL_cons_locked {w : Worker} (h : w.status = WStatus.locked)
    (l : List Worker) : inFlightL (w :: l) = inFlightL l := by
  simp [inFlightL, List.filterMap_cons, h]

theorem inFlightL_cons_done {w : Worker} (h : w.status = WStatus.done)
    (l : List Worker) : inFlightL (w :: l) = inFlightL l := by
  simp [inFlightL, List.filterMap_cons, h]

theorem inFlightL_cons_dead {w : Worker} (h : w.status = WStatus.dead)
    (l : List Worker) : inFlightL (w :: l) = inFlightL l := by
  simp [inFlightL, List.filterMap_cons, h]

/-! ## The reachability invariant -/

/-- Invariant of every state reachable from `ThreadPool::new(n)`. -/
structure PoolInv (n : Nat) (s : PoolState) : Prop where
  /-- The worker collection is fixed at construction: never resized. -/
  len : s.workers.length = n
  /-- Worker ids are `0..n-1` in order. -/
  ids : s.workers.map Worker.id = List.range n
  /-- Every worker was cloned onto the single shared receiver. -/
  rx0 : ∀ w ∈ s.workers, w.rx = 0
  /-- The receiver mutex is never poisoned. -/
  noPoison : s.poisoned = false
  /-- Channel FIFO: deliveries so far followed by the pending queue is
  exactly the submission history. -/
  flow : s.delivered ++ s.queue = s.submitted
  /-- Every delivered job is accounted for exactly once: finished, in
  flight, or lost to a worker panic. -/
  counts : ∀ j : Job, s.delivered.count j =
      s.finished.count j + (inFlight s).count j + s.panickedJobs.count j
  /-- The sender is alive exactly while `drop` has not started. -/
  senderPhase : (s.senderOpen = true) ↔ s.phase = Phase.live
  /-- Before `drop`, every join handle is still present. -/
  liveThreads : s.phase = Phase.live → ∀ w ∈ s.workers, w.hasThread = true
  /-- During `drop`, the workers below the join index have exited normally
  and been joined; the rest still own their handles. -/
  closingIdx : ∀ i, s.phase = Phase.closing i →
      i ≤ s.workers.length ∧
      ∀ k (w : Worker), s.workers[k]? = some w →
        (k < i → w.status = WStatus.done ∧ w.hasThread = false) ∧
        (i ≤ k → w.hasThread = true)
  /-- A worker exits normally only once the sender is gone and the queue has
  drained, and neither can change afterwards. -/
  doneDrained : (∃ w ∈ s.workers, w.status = WStatus.done) →
      s.senderOpen = false ∧ s.queue = []
  /-- One dead worker per panicked job. -/
  deadMatch : s.panickedJobs.length =
      s.workers.countP (fun w => decide (w.status = WStatus.dead))

theorem inv_init (n : Nat) : PoolInv n (initState n) := by
  refine ⟨?_, ?_, ?_, ?_, ?_, ?_, ?_, ?_, ?_, ?_, ?_⟩
  · simp [initState]
  · simp [initState, List.map_map, Function.comp_def, mkWorker]
  · intro w hw
    simp [initState, mkWorker] at hw
    obtain ⟨i, -, rfl⟩ := hw
    rfl
  · rfl
  · rfl
  · intro j
    have h : inFlight (initState n) = [] := by
      simp [inFlight, inFlightL, initState, List.filterMap_map, mkWorker]
    simp only [initState] at h
    simp [initState, h]
  · simp [initState]
  · intro _ w hw
    simp [initState, mkWorker] at hw
    obtain ⟨i, -, rfl⟩ := hw
    rfl
  · intro i h
    simp [initState] at h
  · rintro ⟨w, hw, hdone⟩
    simp [initState, mkWorker] at hw
    obtain ⟨i, -, rfl⟩ := hw
    cases hdone
  · simp [initState, mkWorker, Function.comp_def]

theorem getElem_decomp_self (pre post : List Worker) (w : Worker) :
    (pre ++ w :: post)[pre.length]? = some w := by
  rw [List.getElem?_append_right (Nat.le_refl _)]
  simp

theorem getElem_decomp_ne (pre post : List Worker) (w w' : Worker) (k : Nat)
    (hk : k ≠ pre.length) :
    (pre ++ w' :: post)[k]? = (pre ++ w :: post)[k]? := by
  rcases Nat.lt_or_ge k pre.length with h | h
  · rw [List.getElem?_append_left h, List.getElem?_append_left h]
  · have h2 : pre.length < k := Nat.lt_of_le_of_ne h (Ne.symm hk)
    rw [List.getElem?_append_right h, List.getElem?_append_right h]
    have h3 : k - pre.length = (k - pre.length - 1) + 1 := by omega
    rw [h3, List.getElem?_cons_succ, List.getElem?_cons_succ]

theorem forall_mem_decomp {P : Worker → Prop} {pre post : List Worker} {w : Worker}
    (w' : Worker) (h : ∀ x ∈ pre ++ w :: post, P x) (hw' : P w') :
    ∀ x ∈ pre ++ w' :: post, P x := by
  intro x hx
  simp only [List.mem_append, List.mem_cons] at hx
  rcases hx with hx | rfl | hx
  · exact h x (by simp [hx])
  · exact hw'
  · exact h x (by simp [hx])

theorem sender_false_of_closing {n : Nat} {s : PoolState} {i : Nat}
    (inv : PoolInv n s) (hph : s.phase = Phase.closing i) : s.senderOpen = false := by
  cases hb : s.senderOpen
  · rfl
  · have h := inv.senderPhase.mp hb
    rw [h] at hph
    exact absurd hph (by simp)

/-- Splitting `inFlightL` at a decomposition of the worker list. -/
theorem inFlightL_decomp (pre post : List Worker) (w : Worker) :
    inFlightL (pre ++ w :: post) =
      inFlightL pre ++
        (match w.status with | WStatus.busy j => [j] | _ => []) ++ inFlightL post := by
  cases h : w.status <;>
    simp [inFlightL, List.filterMap_cons, List.filterMap_append, h]

theorem inv_submit {n : Nat} {s s' : PoolState} {j : Job} (inv : PoolInv n s)
    (hex : ThreadPool.execute s j = Except.ok s') : PoolInv n s' := by
  obtain ⟨hso, -, rfl⟩ := execute_ok_inv hex
  refine ⟨inv.len, inv.ids, inv.rx0, inv.noPoison, ?_, ?_, inv.senderPhase,
    inv.liveThreads, inv.closingIdx, ?_, inv.deadMatch⟩
  · show s.delivered ++ (s.queue ++ [j]) = s.submitted ++ [j]
    rw [← List.append_assoc, inv.flow]
  · intro j'
    exact inv.counts j'
  · intro hex'
    exact absurd (inv.doneDrained hex').1 (by simp [hso])

theorem inv_acquire {n : Nat} {s : PoolState} {pre post : List Worker} {w : Worker}
    (inv : PoolInv n s) (hw : s.workers = pre ++ w :: post)
    (hst : w.status = WStatus.idle) :
    PoolInv n { s with workers := pre ++ { w with status := WStatus.locked } :: post } := by
  have hlen := inv.len
  have hids := inv.ids
  have hrx := inv.rx0
  rw [hw] at hlen hids hrx
  refine ⟨?_, ?_, ?_, inv.noPoison, inv.flow, ?_, inv.senderPhase, ?_, ?_, ?_, ?_⟩
  · simpa using hlen
  · simpa using hids
  · exact forall_mem_decomp _ hrx (hrx w (by simp))
  · intro j'
    have h := inv.counts j'
    simp only [inFlight, hw, inFlightL_decomp, hst] at h
    simpa only [inFlight, inFlightL_decomp] using h
  · intro hph
    have h := inv.liveThreads hph
    rw [hw] at h
    exact forall_mem_decomp _ h (h w (by simp))
  · intro i hph
    have h := inv.closingIdx i hph
    rw [hw] at h
    refine ⟨by simpa using h.1, ?_⟩
    intro k x hkx
    by_cases hk : k = pre.length
    · subst hk
      rw [getElem_decomp_self] at hkx
      cases hkx
      constructor
      · intro hlt
        have hold := (h.2 pre.length w (getElem_decomp_self pre post w)).1 hlt
        rw [hst] at hold
        exact absurd hold.1 (by simp)
      · intro hge
        exact (h.2 pre.length w (getElem_decomp_self pre post w)).2 hge
    · rw [getElem_decomp_ne pre post w _ k hk] at hkx
      exact h.2 k x hkx
  · rintro ⟨x, hx, hdone⟩
    simp only [List.mem_append, List.mem_cons] at hx
    rcases hx with hx | rfl | hx
    · exact inv.doneDrained ⟨x, by rw [hw]; simp [hx], hdone⟩
    · simp at hdone
    · exact inv.doneDrained ⟨x, by rw [hw]; simp [hx], hdone⟩
  · have h := inv.deadMatch
    rw [hw] at h
    simp only [List.countP_append, List.countP_cons] at h ⊢
    simpa [hst] using h

theorem inv_recvOk {n : Nat} {s : PoolState} {pre post : List Worker} {w : Worker}
    {j : Job} {rest : List Job} (inv : PoolInv n s)
    (hw : s.workers = pre ++ w :: post) (hst : w.status = WStatus.locked)
    (hq : s.queue = j :: rest) :
    PoolInv n { s with
      workers := pre ++ { w with status := WStatus.busy j } :: post
      queue := rest
      delivered := s.delivered ++ [j] } := by
  have hlen := inv.len
  have hids := inv.ids
  have hrx := inv.rx0
  rw [hw] at hlen hids hrx
  refine ⟨?_, ?_, ?_, inv.noPoison, ?_, ?_, inv.senderPhase, ?_, ?_, ?_, ?_⟩
  · simpa using hlen
  · simpa using hids
  · exact forall_mem_decomp _ hrx (hrx w (by simp))
  · show (s.delivered ++ [j]) ++ rest = s.submitted
    have hf := inv.flow
    rw [hq] at hf
    rw [List.append_assoc]
    simpa using hf
  · intro j'
    have h := inv.counts j'
    simp only [inFlight, hw, inFlightL_decomp, hst] at h
    simp only [inFlight, inFlightL_decomp, List.count_append, List.count_cons,
      List.count_nil] at h ⊢
    by_cases hj : j' = j
    · subst hj
      simp at h ⊢
      omega
    · simp [hj] at h ⊢
      omega
  · intro hph
    have h := inv.liveThreads hph
    rw [hw] at h
    exact forall_mem_decomp _ h (h w (by simp))
  · intro i hph
    have h := inv.closingIdx i hph
    rw [hw] at h
    refine ⟨by simpa using h.1, ?_⟩
    intro k x hkx
    by_cases hk : k = pre.length
    · subst hk
      rw [getElem_decomp_self] at hkx
      cases hkx
      constructor
      · intro hlt
        have hold := (h.2 pre.length w (getElem_decomp_self pre post w)).1 hlt
        rw [hst] at hold
        exact absurd hold.1 (by simp)
      · intro hge
        exact (h.2 pre.length w (getElem_decomp_self pre post w)).2 hge
    · rw [getElem_decomp_ne pre post w _ k hk] at hkx
      exact h.2 k x hkx
  · rintro ⟨x, hx, hdone⟩
    simp only [List.mem_append, List.mem_cons] at hx
    rcases hx with hx | rfl | hx
    · have h2 := (inv.doneDrained ⟨x, by rw [hw]; simp [hx], hdone⟩).2
      rw [hq] at h2
      exact absurd h2 (by simp)
    · simp at hdone
    · have h2 := (inv.doneDrained ⟨x, by rw [hw]; simp [hx], hdone⟩).2
      rw [hq] at h2
      exact absurd h2 (by simp)
  · have h := inv.deadMatch
    rw [hw] at h
    simp only [List.countP_append, List.countP_cons] at h ⊢
    simpa [hst] using h

theorem inv_recvClosed {n : Nat} {s : PoolState} {pre post : List Worker} {w : Worker}
    (inv : PoolInv n s) (hw : s.workers = pre ++ w :: post)
    (hst : w.status = WStatus.locked) (hso : s.senderOpen = false)
    (hq : s.queue = []) :
    PoolInv n { s with workers := pre ++ { w with status := WStatus.done } :: post } := by
  have hlen := inv.len
  have hids := inv.ids
  have hrx := inv.rx0
  rw [hw] at hlen hids hrx
  refine ⟨?_, ?_, ?_, inv.noPoison, inv.flow, ?_, inv.senderPhase, ?_, ?_, ?_, ?_⟩
  · simpa using hlen
  · simpa using hids
  · exact forall_mem_decomp _ hrx (hrx w (by simp))
  · intro j'
    have h := inv.counts j'
    simp only [inFlight, hw, inFlightL_decomp, hst] at h
    simpa only [inFlight, inFlightL_decomp] using h
  · intro hph
    have h := inv.liveThreads hph
    rw [hw] at h
    exact forall_mem_decomp _ h (h w (by simp))
  · intro i hph
    have h := inv.closingIdx i hph
    rw [hw] at h
    refine ⟨by simpa using h.1, ?_⟩
    intro k x hkx
    by_cases hk : k = pre.length
    · subst hk
      rw [getElem_decomp_self] at hkx
      cases hkx
      constructor
      · intro hlt
        have hold := (h.2 pre.length w (getElem_decomp_self pre post w)).1 hlt
        rw [hst] at hold
        exact absurd hold.1 (by simp)
      · intro hge
        exact (h.2 pre.length w (getElem_decomp_self pre post w)).2 hge
    · rw [getElem_decomp_ne pre post w _ k hk] at hkx
      exact h.2 k x hkx
  · intro _
    exact ⟨hso, hq⟩
  · have h := inv.deadMatch
    rw [hw] at h
    simp only [List.countP_append, List.countP_cons] at h ⊢
    simpa [hst] using h

theorem inv_finish {n : Nat} {s : PoolState} {pre post : List Worker} {w : Worker}
    {j : Job} (inv : PoolInv n s) (hw : s.workers = pre ++ w :: post)
    (hst : w.status = WStatus.busy j) :
    PoolInv n { s with
      workers := pre ++ { w with status := WStatus.idle } :: post
      finished := s.finished ++ [j] } := by
  have hlen := inv.len
  have hids := inv.ids
  have hrx := inv.rx0
  rw [hw] at hlen hids hrx
  refine ⟨?_, ?_, ?_, inv.noPoison, inv.flow, ?_, inv.senderPhase, ?_, ?_, ?_, ?_⟩
  · simpa using hlen
  · simpa using hids
  · exact forall_mem_decomp _ hrx (hrx w (by simp))
  · intro j'
    have h := inv.counts j'
    simp only [inFlight, hw, inFlightL_decomp, hst] at h
    simp only [inFlight, inFlightL_decomp, List.count_append, List.count_cons,
      List.count_nil] at h ⊢
    by_cases hj : j' = j
    · subst hj
      simp at h ⊢
      omega
    · simp [hj] at h ⊢
      omega
  · intro hph
    have h := inv.liveThreads hph
    rw [hw] at h
    exact forall_mem_decomp _ h (h w (by simp))
  · intro i hph
    have h := inv.closingIdx i hph
    rw [hw] at h
    refine ⟨by simpa using h.1, ?_⟩
    intro k x hkx
    by_cases hk : k = pre.length
    · subst hk
      rw [getElem_decomp_self] at hkx
      cases hkx
      constructor
      · intro hlt
        have hold := (h.2 pre.length w (getElem_decomp_self pre post w)).1 hlt
        rw [hst] at hold
        exact absurd hold.1 (by simp)
      · intro hge
        exact (h.2 pre.length w (getElem_decomp_self pre post w)).2 hge
    · rw [getElem_decomp_ne pre post w _ k hk] at hkx
      exact h.2 k x hkx
  · rintro ⟨x, hx, hdone⟩
    simp only [List.mem_append, List.mem_cons] at hx
    rcases hx with hx | rfl | hx
    · exact inv.doneDrained ⟨x, by rw [hw]; simp [hx], hdone⟩
    · simp at hdone
    · exact inv.doneDrained ⟨x, by rw [hw]; simp [hx], hdone⟩
  · have h := inv.deadMatch
    rw [hw] at h
    simp only [List.countP_append, List.countP_cons] at h ⊢
    simpa [hst] using h

theorem inv_jobPanic {n : Nat} {s : PoolState} {pre post : List Worker} {w : Worker}
    {j : Job} (inv : PoolInv n s) (hw : s.workers = pre ++ w :: post)
    (hst : w.status = WStatus.busy j) :
    PoolInv n { s with
      workers := pre ++ { w with status := WStatus.dead } :: post
      poisoned := s.poisoned || holdsLock w
      panickedJobs := s.panickedJobs ++ [j] } := by
  have hlen := inv.len
  have hids := inv.ids
  have hrx := inv.rx0
  rw [hw] at hlen hids hrx
  refine ⟨?_, ?_, ?_, ?_, inv.flow, ?_, inv.senderPhase, ?_, ?_, ?_, ?_⟩
  · simpa using hlen
  · simpa using hids
  · exact forall_mem_decomp _ hrx (hrx w (by simp))
  · show (s.poisoned || holdsLock w) = false
    simp [inv.noPoison, holdsLock, hst]
  · intro j'
    have h := inv.counts j'
    simp only [inFlight, hw, inFlightL_decomp, hst] at h
    simp only [inFlight, inFlightL_decomp, List.count_append, List.count_cons,
      List.count_nil] at h ⊢
    by_cases hj : j' = j
    · subst hj
      simp at h ⊢
      omega
    · simp [hj] at h ⊢
      omega
  · intro hph
    have h := inv.liveThreads hph
    rw [hw] at h
    exact forall_mem_decomp _ h (h w (by simp))
  · intro i hph
    have h := inv.closingIdx i hph
    rw [hw] at h
    refine ⟨by simpa using h.1, ?_⟩
    intro k x hkx
    by_cases hk : k = pre.length
    · subst hk
      rw [getElem_decomp_self] at hkx
      cases hkx
      constructor
      · intro hlt
        have hold := (h.2 pre.length w (getElem_decomp_self pre post w)).1 hlt
        rw [hst] at hold
        exact absurd hold.1 (by simp)
      · intro hge
        exact (h.2 pre.length w (getElem_decomp_self pre post w)).2 hge
    · rw [getElem_decomp_ne pre post w _ k hk] at hkx
      exact h.2 k x hkx
  · rintro ⟨x, hx, hdone⟩
    simp only [List.mem_append, List.mem_cons] at hx
    rcases hx with hx | rfl | hx
    · exact inv.doneDrained ⟨x, by rw [hw]; simp [hx], hdone⟩
    · simp at hdone
    · exact inv.doneDrained ⟨x, by rw [hw]; simp [hx], hdone⟩
  · have h := inv.deadMatch
    rw [hw] at h
    simp only [List.countP_append, List.countP_cons] at h ⊢
    simp [hst] at h ⊢
    omega

theorem inv_closeSender {n : Nat} {s : PoolState} (inv : PoolInv n s)
    (hph : s.phase = Phase.live) :
    PoolInv n { s with senderOpen := false, phase := Phase.closing 0 } := by
  refine ⟨inv.len, inv.ids, inv.rx0, inv.noPoison, inv.flow, ?_, ?_, ?_, ?_, ?_,
    inv.deadMatch⟩
  · intro j'
    exact inv.counts j'
  · show (false = true) ↔ (Phase.closing 0 = Phase.live)
    simp
  · intro h
    exact absurd h (by simp)
  · intro i hph2
    have hi : i = 0 := by
      cases hph2
      rfl
    subst hi
    refine ⟨Nat.zero_le _, ?_⟩
    intro k x hkx
    refine ⟨fun hk0 => absurd hk0 (by omega), fun _ => ?_⟩
    exact inv.liveThreads hph x (List.getElem?_mem hkx)
  · intro hex
    exact ⟨rfl, (inv.doneDrained hex).2⟩

theorem inv_joinOk {n : Nat} {s : PoolState} {pre post : List Worker} {w : Worker}
    (inv : PoolInv n s) (hw : s.workers = pre ++ w :: post)
    (hph : s.phase = Phase.closing pre.length)
    (hdone : w.status = WStatus.done) :
    PoolInv n { s with
      workers := pre ++ { w with hasThread := false } :: post
      phase := Phase.closing (pre.length + 1) } := by
  have hlen := inv.len
  have hids := inv.ids
  have hrx := inv.rx0
  have hso := sender_false_of_closing inv hph
  rw [hw] at hlen hids hrx
  refine ⟨?_, ?_, ?_, inv.noPoison, inv.flow, ?_, ?_, ?_, ?_, ?_, ?_⟩
  · simpa using hlen
  · simpa using hids
  · exact forall_mem_decomp _ hrx (hrx w (by simp))
  · intro j'
    have h := inv.counts j'
    simp only [inFlight, hw, inFlightL_decomp, hdone] at h
    simpa only [inFlight, inFlightL_decomp, hdone] using h
  · rw [hso]
    simp
  · intro h
    exact absurd h (by simp)
  · intro i hph2
    have hi : i = pre.length + 1 := by
      cases hph2
      rfl
    subst hi
    have h := inv.closingIdx pre.length hph
    rw [hw] at h
    constructor
    · simp
    · intro k x hkx
      by_cases hk : k = pre.length
      · subst hk
        rw [getElem_decomp_self] at hkx
        cases hkx
        exact ⟨fun _ => ⟨hdone, rfl⟩, fun hge => absurd hge (by omega)⟩
      · rw [getElem_decomp_ne pre post w _ k hk] at hkx
        have h2 := h.2 k x hkx
        have hk2 : k ≠ pre.length := hk
        exact ⟨fun hlt => h2.1 (by omega), fun hge => h2.2 (by omega)⟩
  · intro _
    exact inv.doneDrained ⟨w, by rw [hw]; simp, hdone⟩
  · have h := inv.deadMatch
    rw [hw] at h
    simp only [List.countP_append, List.countP_cons] at h ⊢
    simpa [hdone] using h

theorem inv_joinPanicked {n : Nat} {s : PoolState} {pre post : List Worker} {w : Worker}
    (inv : PoolInv n s) (hw : s.workers = pre ++ w :: post)
    (hph : s.phase = Phase.closing pre.length)
    (hdead : w.status = WStatus.dead) :
    PoolInv n { s with
      workers := pre ++ { w with hasThread := false } :: post
      phase := Phase.aborted pre.length } := by
  have hlen := inv.len
  have hids := inv.ids
  have hrx := inv.rx0
  have hso := sender_false_of_closing inv hph
  rw [hw] at hlen hids hrx
  refine ⟨?_, ?_, ?_, inv.noPoison, inv.flow, ?_, ?_, ?_, ?_, ?_, ?_⟩
  · simpa using hlen
  · simpa using hids
  · exact forall_mem_decomp _ hrx (hrx w (by simp))
  · intro j'
    have h := inv.counts j'
    simp only [inFlight, hw, inFlightL_decomp, hdead] at h
    simpa only [inFlight, inFlightL_decomp, hdead] using h
  · rw [hso]
    simp
  · intro h
    exact absurd h (by simp)
  · intro i hph2
    exact absurd hph2 (by simp)
  · rintro ⟨x, hx, hdone⟩
    simp only [List.mem_append, List.mem_cons] at hx
    rcases hx with hx | rfl | hx
    · exact inv.doneDrained ⟨x, by rw [hw]; simp [hx], hdone⟩
    · simp [hdead] at hdone
    · exact inv.doneDrained ⟨x, by rw [hw]; simp [hx], hdone⟩
  · have h := inv.deadMatch
    rw [hw] at h
    simp only [List.countP_append, List.countP_cons] at h ⊢
    simpa [hdead] using h

/-- The invariant is preserved by every step. -/
theorem inv_step {n : Nat} {s s' : PoolState} {l : Label}
    (inv : PoolInv n s) (hs : Step s l s') : PoolInv n s' := by
  cases hs with
  | submit _ j hph hex => exact inv_submit inv hex
  | acquire pre post w hw hst hnl hnp => exact inv_acquire inv hw hst
  | lockPoison pre post w hw hst hnl hp =>
      have h := inv.noPoison
      rw [hp] at h
      cases h
  | recvOk pre post w j rest hw hst hq => exact inv_recvOk inv hw hst hq
  | recvClosed pre post w hw hst hso hq => exact inv_recvClosed inv hw hst hso hq
  | finish pre post w j hw hst hjp => exact inv_finish inv hw hst
  | jobPanic pre post w j hw hst hjp => exact inv_jobPanic inv hw hst
  | closeSender hph => exact inv_closeSender inv hph
  | joinOk pre post w hw hph hdone hht => exact inv_joinOk inv hw hph hdone
  | joinPanicked pre post w hw hph hdead hht => exact inv_joinPanicked inv hw hph hdead

/-- The invariant holds along every trace. -/
theorem inv_trace {n : Nat} {s s' : PoolState} {tr : List Label}
    (inv : PoolInv n s) (ht : Trace s tr s') : PoolInv n s' := by
  induction ht with
  | nil _ => exact inv
  | cons _ _ _ _ _ hstep _ ih => exact ih (inv_step inv hstep)

/-- Every reachable state satisfies the invariant. -/
theorem reachable_inv {n : Nat} {s : PoolState} (h : Reachable n s) : PoolInv n s := by
  obtain ⟨s₀, tr, hnew, htr⟩ := h
  unfold ThreadPool.new at hnew
  split at hnew
  · cases hnew
    exact inv_trace (inv_init n) htr
  · cases hnew

theorem step_joinOk_count {s s' : PoolState} {i : Nat}
    (hs : Step s (Label.joinOk i) s') :
    joinedCount s = i ∧ joinedCount s' = i + 1 := by
  cases hs with
  | joinOk pre post w hw hph hdone hht =>
    constructor
    · simp [joinedCount, hph]
    · simp [joinedCount]

theorem step_other_count {s s' : PoolState} {l : Label} (hs : Step s l s')
    (hl : ∀ i, l ≠ Label.joinOk i) : joinedCount s' = joinedCount s := by
  cases hs with
  | submit _ j hph hex =>
    obtain ⟨-, -, rfl⟩ := execute_ok_inv hex
    rfl
  | acquire pre post w hw hst hnl hnp => rfl
  | lockPoison pre post w hw hst hnl hp => rfl
  | recvOk pre post w j rest hw hst hq => rfl
  | recvClosed pre post w hw hst hso hq => rfl
  | finish pre post w j hw hst hjp => rfl
  | jobPanic pre post w j hw hst hjp => rfl
  | closeSender hph => simp [joinedCount, hph]
  | joinOk pre post w hw hph hdone hht => exact absurd rfl (hl pre.length)
  | joinPanicked pre post w hw hph hdead hht => simp [joinedCount, hph]

/-- Along a trace, the successful joins are exactly the consecutive indices
from the current join counter: `drop` joins workers in construction order. -/
theorem trace_joinLabels {tr : List Label} :
    ∀ {s s' : PoolState}, Trace s tr s' →
      joinedCount s ≤ joinedCount s' ∧
      joinLabels tr = List.range' (joinedCount s) (joinedCount s' - joinedCount s) := by
  induction tr with
  | nil =>
    intro s s' ht
    cases ht
    simp [joinLabels]
  | cons l tr ih =>
    intro s s' ht
    cases ht with
    | cons _ s₂ _ _ _ hstep htr =>
      obtain ⟨ih1, ih2⟩ := ih htr
      by_cases hl : ∃ i, l = Label.joinOk i
      · obtain ⟨i, rfl⟩ := hl
        obtain ⟨h1, h2⟩ := step_joinOk_count hstep
        refine ⟨by omega, ?_⟩
        have hstep2 : joinLabels (Label.joinOk i :: tr) = i :: joinLabels tr := by
          simp [joinLabels, List.filterMap_cons]
        rw [hstep2, ih2, h1, h2]
        have h3 : joinedCount s' - i = (joinedCount s' - (i + 1)) + 1 := by omega
        rw [h3, List.range'_succ i _ 1]
      · have hl' : ∀ i, l ≠ Label.joinOk i := by
          intro i hli
          exact hl ⟨i, hli⟩
        have he := step_other_count hstep hl'
        refine ⟨by omega, ?_⟩
        have hstep2 : joinLabels (l :: tr) = joinLabels tr := by
          cases l with
          | joinOk i => exact absurd rfl (hl' i)
          | submit j => simp [joinLabels, List.filterMap_cons]
          | acquire i => simp [joinLabels, List.filterMap_cons]
          | lockPoisonPanic i => simp [joinLabels, List.filterMap_cons]
          | recvOk i j => simp [joinLabels, List.filterMap_cons]
          | recvClosed i => simp [joinLabels, List.filterMap_cons]
          | finish i j => simp [joinLabels, List.filterMap_cons]
          | jobPanic i j => simp [joinLabels, List.filterMap_cons]
          | closeSender => simp [joinLabels, List.filterMap_cons]
          | joinPanicked i => simp [joinLabels, List.filterMap_cons]
        rw [hstep2, ih2, he]

/-- A trace decomposes at any split of its label list. -/
theorem trace_append_split {t1 t2 : List Label} :
    ∀ {s s' : PoolState}, Trace s (t1 ++ t2) s' →
      ∃ m, Trace s t1 m ∧ Trace m t2 s' := by
  induction t1 with
  | nil =>
    intro s s' ht
    exact ⟨s, Trace.nil s, ht⟩
  | cons l t1 ih =>
    intro s s' ht
    cases ht with
    | cons _ s₂ _ _ _ hstep htr =>
      obtain ⟨m, h1, h2⟩ := ih htr
      exact ⟨m, Trace.cons _ _ _ _ _ hstep h1, h2⟩

/-- Two traces chain into one. -/
theorem trace_append {t1 t2 : List Label} :
    ∀ {s m s' : PoolState}, Trace s t1 m → Trace m t2 s' →
      Trace s (t1 ++ t2) s' := by
  induction t1 with
  | nil =>
    intro s m s' h1 h2
    cases h1
    exact h2
  | cons l t1 ih =>
    intro s m s' h1 h2
    cases h1 with
    | cons _ s₂ _ _ _ hstep htr =>
      exact Trace.cons _ _ _ _ _ hstep (ih htr h2)

theorem phase_live_step {s s' : PoolState} {l : Label} (hs : Step s l s')
    (hph : s.phase = Phase.live) (hl : l ≠ Label.closeSender) :
    s'.phase = Phase.live := by
  cases hs with
  | submit _ j hph2 hex =>
    obtain ⟨-, -, rfl⟩ := execute_ok_inv hex
    exact hph
  | acquire pre post w hw hst hnl hnp => exact hph
  | lockPoison pre post w hw hst hnl hp => exact hph
  | recvOk pre post w j rest hw hst hq => exact hph
  | recvClosed pre post w hw hst hso hq => exact hph
  | finish pre post w j hw hst hjp => exact hph
  | jobPanic pre post w j hw hst hjp => exact hph
  | closeSender hph2 => exact absurd rfl hl
  | joinOk pre post w hw hph2 hdone hht =>
    rw [hph] at hph2
    exact absurd hph2 (by simp)
  | joinPanicked pre post w hw hph2 hdead hht =>
    rw [hph] at hph2
    exact absurd hph2 (by simp)

/-- Until the sender is dropped, the pool stays live. -/
theorem live_along {tr : List Label} :
    ∀ {s s' : PoolState}, Trace s tr s' → s.phase = Phase.live →
      Label.closeSender ∉ tr → s'.phase = Phase.live := by
  induction tr with
  | nil =>
    intro s s' ht hph _
    cases ht
    exact hph
  | cons l tr ih =>
    intro s s' ht hph hnc
    simp only [List.mem_cons, not_or] at hnc
    cases ht with
    | cons _ s₂ _ _ _ hstep htr =>
      exact ih htr (phase_live_step hstep hph (fun h => hnc.1 h.symm)) hnc.2

/-- In any execution of a live pool, every join is preceded by the drop of
the sender: teardown closes the write handle before joining anything. -/
theorem close_before_join {s s' : PoolState} {tr : List Label}
    (ht : Trace s tr s') (hph : s.phase = Phase.live) :
    ∀ t1 t2 (i : Nat), tr = t1 ++ Label.joinOk i :: t2 →
      Label.closeSender ∈ t1 := by
  intro t1 t2 i htr
  by_contra hnc
  subst htr
  obtain ⟨m, h1, h2⟩ := trace_append_split ht
  have hm : m.phase = Phase.live := live_along h1 hph hnc
  cases h2 with
  | cons _ s₂ _ _ _ hstep _ =>
    cases hstep with
    | joinOk pre post w hw hph2 hdone hht =>
      rw [hm] at hph2
      exact absurd hph2 (by simp)

theorem inFlightL_eq_nil {ws : List Worker}
    (h : ∀ w ∈ ws, w.status = WStatus.done) : inFlightL ws = [] := by
  induction ws with
  | nil => rfl
  | cons w ws ih =>
    have hw := h w (by simp)
    simp only [inFlightL, List.filterMap_cons, hw]
    exact ih (fun x hx => h x (by simp [hx]))

/-- When `drop` has joined every worker, all workers exited normally and all
handles are gone. -/
theorem dropComplete_all_done {n : Nat} {s : PoolState} (inv : PoolInv n s)
    (hdc : dropComplete s) :
    ∀ w ∈ s.workers, w.status = WStatus.done ∧ w.hasThread = false := by
  intro w hw
  obtain ⟨k, hk⟩ := List.mem_iff_getElem?.mp hw
  have hlt : k < s.workers.length := (List.getElem?_eq_some.mp hk).1
  exact ((inv.closingIdx s.workers.length hdc).2 k w hk).1 hlt

/-- After a completed `drop` of a nonempty pool: the queue has drained, the
delivery history equals the submission history, and every submitted job was
finished exactly as often as it was submitted. -/
theorem dropComplete_state {n : Nat} {s : PoolState} (inv : PoolInv n s)
    (hdc : dropComplete s) (hn : 0 < n) :
    s.queue = [] ∧ s.delivered = s.submitted ∧
      (∀ j : Job, s.finished.count j = s.submitted.count j) ∧
      s.panickedJobs = [] := by
  have hall := dropComplete_all_done inv hdc
  have hlen := inv.len
  have hne : s.workers ≠ [] := by
    intro h
    rw [h] at hlen
    simp at hlen
    omega
  obtain ⟨w0, hw0⟩ : ∃ w, w ∈ s.workers := by
    cases hws : s.workers with
    | nil => exact absurd hws hne
    | cons a l => exact ⟨a, by simp [hws]⟩
  have hq : s.queue = [] := (inv.doneDrained ⟨w0, hw0, (hall w0 hw0).1⟩).2
  have hdel : s.delivered = s.submitted := by
    have hf := inv.flow
    rw [hq] at hf
    simpa using hf
  have hifl : inFlight s = [] := inFlightL_eq_nil (fun w hw => (hall w hw).1)
  have hpj : s.panickedJobs = [] := by
    have hd := inv.deadMatch
    have hz : s.workers.countP (fun w => decide (w.status = WStatus.dead)) = 0 := by
      rw [List.countP_eq_zero]
      intro w hw
      simp [(hall w hw).1]
    rw [hz] at hd
    exact List.eq_nil_of_length_eq_zero hd
  refine ⟨hq, hdel, ?_, hpj⟩
  intro j
  have hc := inv.counts j
  rw [hifl, hpj, hdel] at hc
  simp at hc
  omega

/-! ## Concrete executions -/

/-- A job that runs to completion. -/
def jA : Job := { id := 0, panics := false }

/-- A second job that runs to completion. -/
def jB : Job := { id := 1, panics := false }

/-- A job whose closure panics when executed. -/
def jP : Job := { id := 2, panics := true }

/-- A pool of two workers can finish `jA` before `jB`. -/
theorem scenario_order1 : ∃ s : PoolState, Reachable 2 s ∧
    s.submitted = [jA, jB] ∧ s.finished = [jA, jB] := by
  refine ⟨{ workers := [⟨0, 0, WStatus.idle, true⟩, ⟨1, 0, WStatus.idle, true⟩]
            senderOpen := true, queue := [], poisoned := false, phase := Phase.live
            submitted := [jA, jB], delivered := [jA, jB], finished := [jA, jB]
            panickedJobs := [] },
    ⟨initState 2,
      [Label.submit jA, Label.submit jB, Label.acquire 0, Label.recvOk 0 jA,
        Label.acquire 1, Label.recvOk 1 jB, Label.finish 0 jA, Label.finish 1 jB],
      rfl, ?_⟩, rfl, rfl⟩
  refine Trace.cons _ _ _ _ _ (Step.submit _ _ jA rfl rfl) ?_
  refine Trace.cons _ _ _ _ _ (Step.submit _ _ jB rfl rfl) ?_
  refine Trace.cons _ _ _ _ _ (Step.acquire _ [] [_] _ rfl rfl (by decide) rfl) ?_
  refine Trace.cons _ _ _ _ _ (Step.recvOk _ [] [_] _ jA [jB] rfl rfl rfl) ?_
  refine Trace.cons _ _ _ _ _ (Step.acquire _ [_] [] _ rfl rfl (by decide) rfl) ?_
  refine Trace.cons _ _ _ _ _ (Step.recvOk _ [_] [] _ jB [] rfl rfl rfl) ?_
  refine Trace.cons _ _ _ _ _ (Step.finish _ [] [_] _ jA rfl rfl rfl) ?_
  refine Trace.cons _ _ _ _ _ (Step.finish _ [_] [] _ jB rfl rfl rfl) ?_
  exact Trace.nil _

/-- The same two submissions can also finish in the opposite order: relative
completion order across workers is not constrained. -/
theorem scenario_order2 : ∃ s : PoolState, Reachable 2 s ∧
    s.submitted = [jA, jB] ∧ s.finished = [jB, jA] := by
  refine ⟨{ workers := [⟨0, 0, WStatus.idle, true⟩, ⟨1, 0, WStatus.idle, true⟩]
            senderOpen := true, queue := [], poisoned := false, phase := Phase.live
            submitted := [jA, jB], delivered := [jA, jB], finished := [jB, jA]
            panickedJobs := [] },
    ⟨initState 2,
      [Label.submit jA, Label.submit jB, Label.acquire 0, Label.recvOk 0 jA,
        Label.acquire 1, Label.recvOk 1 jB, Label.finish 1 jB, Label.finish 0 jA],
      rfl, ?_⟩, rfl, rfl⟩
  refine Trace.cons _ _ _ _ _ (Step.submit _ _ jA rfl rfl) ?_
  refine Trace.cons _ _ _ _ _ (Step.submit _ _ jB rfl rfl) ?_
  refine Trace.cons _ _ _ _ _ (Step.acquire _ [] [_] _ rfl rfl (by decide) rfl) ?_
  refine Trace.cons _ _ _ _ _ (Step.recvOk _ [] [_] _ jA [jB] rfl rfl rfl) ?_
  refine Trace.cons _ _ _ _ _ (Step.acquire _ [_] [] _ rfl rfl (by decide) rfl) ?_
  refine Trace.cons _ _ _ _ _ (Step.recvOk _ [_] [] _ jB [] rfl rfl rfl) ?_
  refine Trace.cons _ _ _ _ _ (Step.finish _ [_] [] _ jB rfl rfl rfl) ?_
  refine Trace.cons _ _ _ _ _ (Step.finish _ [] [_] _ jA rfl rfl rfl) ?_
  exact Trace.nil _

/-- Labels of an execution that leaves both workers of a two-worker pool
executing at the same time. -/
def busyTrace : List Label :=
  [Label.submit jA, Label.submit jB, Label.acquire 0, Label.recvOk 0 jA,
    Label.acquire 1, Label.recvOk 1 jB]

/-- State in which both workers of a two-worker pool are executing at once. -/
def busyState : PoolState :=
  { workers := [⟨0, 0, WStatus.busy jA, true⟩, ⟨1, 0, WStatus.busy jB, true⟩]
    senderOpen := true, queue := [], poisoned := false, phase := Phase.live
    submitted := [jA, jB], delivered := [jA, jB], finished := []
    panickedJobs := [] }

theorem busy_trace : Trace (initState 2) busyTrace busyState := by
  refine Trace.cons _ _ _ _ _ (Step.submit _ _ jA rfl rfl) ?_
  refine Trace.cons _ _ _ _ _ (Step.submit _ _ jB rfl rfl) ?_
  refine Trace.cons _ _ _ _ _ (Step.acquire _ [] [_] _ rfl rfl (by decide) rfl) ?_
  refine Trace.cons _ _ _ _ _ (Step.recvOk _ [] [_] _ jA [jB] rfl rfl rfl) ?_
  refine Trace.cons _ _ _ _ _ (Step.acquire _ [_] [] _ rfl rfl (by decide) rfl) ?_
  refine Trace.cons _ _ _ _ _ (Step.recvOk _ [_] [] _ jB [] rfl rfl rfl) ?_
  exact Trace.nil _

/-- Both workers can be executing jobs at the same time: claiming the second
job is not blocked by the first one still running. -/
theorem scenario_parallel : ∃ s : PoolState, Reachable 2 s ∧
    s.workers.map Worker.status = [WStatus.busy jA, WStatus.busy jB] :=
  ⟨busyState, ⟨initState 2, busyTrace, rfl, busy_trace⟩, rfl⟩

/-- Labels of an execution where worker 0 runs the panicking job `jP` and
worker 1 runs the normal job `jB`. -/
def panicTrace : List Label :=
  [Label.submit jP, Label.submit jB, Label.acquire 0, Label.recvOk 0 jP,
    Label.acquire 1, Label.recvOk 1 jB, Label.jobPanic 0 jP, Label.finish 1 jB]

/-- State after `jP` killed worker 0 while worker 1 finished `jB`. -/
def panicState : PoolState :=
  { workers := [⟨0, 0, WStatus.dead, true⟩, ⟨1, 0, WStatus.idle, true⟩]
    senderOpen := true, queue := [], poisoned := false, phase := Phase.live
    submitted := [jP, jB], delivered := [jP, jB], finished := [jB]
    panickedJobs := [jP] }

theorem panic_trace : Trace (initState 2) panicTrace panicState := by
  refine Trace.cons _ _ _ _ _ (Step.submit _ _ jP rfl rfl) ?_
  refine Trace.cons _ _ _ _ _ (Step.submit _ _ jB rfl rfl) ?_
  refine Trace.cons _ _ _ _ _ (Step.acquire _ [] [_] _ rfl rfl (by decide) rfl) ?_
  refine Trace.cons _ _ _ _ _ (Step.recvOk _ [] [_] _ jP [jB] rfl rfl rfl) ?_
  refine Trace.cons _ _ _ _ _ (Step.acquire _ [_] [] _ rfl rfl (by decide) rfl) ?_
  refine Trace.cons _ _ _ _ _ (Step.recvOk _ [_] [] _ jB [] rfl rfl rfl) ?_
  refine Trace.cons _ _ _ _ _ (Step.jobPanic _ [] [_] _ jP rfl rfl rfl) ?_
  refine Trace.cons _ _ _ _ _ (Step.finish _ [_] [] _ jB rfl rfl rfl) ?_
  exact Trace.nil _

/-- A panicking job kills only its own worker: the other worker still
finishes the normal job and the pool keeps one unit of capacity. -/
theorem scenario_panic : ∃ s : PoolState, Reachable 2 s ∧
    s.workers.map Worker.status = [WStatus.dead, WStatus.idle] ∧
    s.finished = [jB] ∧ s.panickedJobs = [jP] ∧ aliveCount s = 1 ∧
    s.workers.length = 2 ∧ s.senderOpen = true ∧ s.poisoned = false :=
  ⟨panicState, ⟨initState 2, panicTrace, rfl, panic_trace⟩,
    rfl, rfl, rfl, by decide, rfl, rfl, rfl⟩

/-- Labels of a complete lifecycle on a pool of one worker: two jobs queued,
the pool dropped immediately, the worker drains both jobs after the sender
is gone, observes closure, and is joined. -/
def drainTrace : List Label :=
  [Label.submit jA, Label.submit jB, Label.closeSender,
    Label.acquire 0, Label.recvOk 0 jA, Label.finish 0 jA,
    Label.acquire 0, Label.recvOk 0 jB, Label.finish 0 jB,
    Label.acquire 0, Label.recvClosed 0, Label.joinOk 0]

/-- Final state of `drainTrace`: `drop` has completed. -/
def drainState : PoolState :=
  { workers := [⟨0, 0, WStatus.done, false⟩]
    senderOpen := false, queue := [], poisoned := false, phase := Phase.closing 1
    submitted := [jA, jB], delivered := [jA, jB], finished := [jA, jB]
    panickedJobs := [] }

theorem drain_trace : Trace (initState 1) drainTrace drainState := by
  refine Trace.cons _ _ _ _ _ (Step.submit _ _ jA rfl rfl) ?_
  refine Trace.cons _ _ _ _ _ (Step.submit _ _ jB rfl rfl) ?_
  refine Trace.cons _ _ _ _ _ (Step.closeSender _ rfl) ?_
  refine Trace.cons _ _ _ _ _ (Step.acquire _ [] [] _ rfl rfl (by decide) rfl) ?_
  refine Trace.cons _ _ _ _ _ (Step.recvOk _ [] [] _ jA [jB] rfl rfl rfl) ?_
  refine Trace.cons _ _ _ _ _ (Step.finish _ [] [] _ jA rfl rfl rfl) ?_
  refine Trace.cons _ _ _ _ _ (Step.acquire _ [] [] _ rfl rfl (by decide) rfl) ?_
  refine Trace.cons _ _ _ _ _ (Step.recvOk _ [] [] _ jB [] rfl rfl rfl) ?_
  refine Trace.cons _ _ _ _ _ (Step.finish _ [] [] _ jB rfl rfl rfl) ?_
  refine Trace.cons _ _ _ _ _ (Step.acquire _ [] [] _ rfl rfl (by decide) rfl) ?_
  refine Trace.cons _ _ _ _ _ (Step.recvClosed _ [] [] _ rfl rfl rfl rfl) ?_
  refine Trace.cons _ _ _ _ _ (Step.joinOk _ [] [] _ rfl rfl rfl rfl) ?_
  exact Trace.nil _

/-- A constructed pool always has a positive worker count. -/
theorem reachable_pos {n : Nat} {s : PoolState} (h : Reachable n s) : 0 < n := by
  obtain ⟨s₀, tr, hnew, -⟩ := h
  unfold ThreadPool.new at hnew
  split at hnew
  · assumption
  · cases hnew

/-- Status of the worker at the decomposition point. -/
theorem statusAt_decomp {s : PoolState} {pre post : List Worker} {w : Worker}
    (hw : s.workers = pre ++ w :: post) :
    statusAt s pre.length = some w.status := by
  unfold statusAt
  rw [hw, getElem_decomp_self]
  rfl

/-! ## The claims -/

/-- C1: for every sequence of jobs submitted via `ThreadPool::execute`, jobs
become available to workers in submission order — the delivery history
followed by the pending queue is exactly the submission history, so
deliveries are a duplication-free prefix of the submissions — once teardown
completes every submitted job has been executed exactly as often as it was
submitted (no loss, no duplication), and completion order across distinct
workers is unconstrained: the same two submissions can finish in either
order. -/
theorem c1_fifo_exactly_once {n : Nat} {s : PoolState} (h : Reachable n s) :
    s.delivered ++ s.queue = s.submitted ∧
    (∀ j : Job, s.delivered.count j + s.queue.count j = s.submitted.count j) ∧
    (s.submitted.Nodup → s.delivered.Nodup) ∧
    (dropComplete s → ∀ j : Job, s.finished.count j = s.submitted.count j) ∧
    (∃ s₁ s₂ : PoolState, Reachable 2 s₁ ∧ Reachable 2 s₂ ∧
      s₁.submitted = s₂.submitted ∧ s₁.finished ≠ s₂.finished ∧
      s₁.finished.Perm s₂.finished) := by
  have inv := reachable_inv h
  have hn := reachable_pos h
  refine ⟨inv.flow, ?_, ?_, ?_, ?_⟩
  · intro j
    rw [← inv.flow]
    simp [List.count_append]
  · intro hnd
    rw [← inv.flow] at hnd
    exact hnd.of_append_left
  · intro hdc
    exact (dropComplete_state inv hdc hn).2.2.1
  · obtain ⟨s₁, h₁, hsub₁, hfin₁⟩ := scenario_order1
    obtain ⟨s₂, h₂, hsub₂, hfin₂⟩ := scenario_order2
    refine ⟨s₁, s₂, h₁, h₂, by rw [hsub₁, hsub₂], ?_, ?_⟩
    · rw [hfin₁, hfin₂]
      decide
    · rw [hfin₁, hfin₂]
      decide

theorem c1_witness :
    drainState.delivered ++ drainState.queue = drainState.submitted ∧
    ∀ j : Job, drainState.finished.count j = drainState.submitted.count j := by
  have h := @c1_fifo_exactly_once 1 drainState ⟨initState 1, drainTrace, rfl, drain_trace⟩
  exact ⟨h.1, h.2.2.2.1 rfl⟩

/-- C2: when the pool is dropped, teardown runs until every job queued
before shutdown began has completed — in any state where `drop` has
finished, the queue has drained, every submitted job was delivered and
finished exactly as submitted; dropping the sender discards nothing from
the queue; and a worker observes the closed condition only once the sender
is gone and the queue is empty. -/
theorem c2_shutdown_drains {n : Nat} {s : PoolState} (h : Reachable n s) :
    (dropComplete s → s.queue = [] ∧ s.delivered = s.submitted ∧
      ∀ j : Job, s.finished.count j = s.submitted.count j) ∧
    (∀ s', Step s Label.closeSender s' →
      s'.queue = s.queue ∧ s'.submitted = s.submitted ∧ s'.delivered = s.delivered) ∧
    (∀ i s', Step s (Label.recvClosed i) s' →
      s.senderOpen = false ∧ s.queue = []) := by
  have inv := reachable_inv h
  have hn := reachable_pos h
  refine ⟨?_, ?_, ?_⟩
  · intro hdc
    obtain ⟨a, b, c, -⟩ := dropComplete_state inv hdc hn
    exact ⟨a, b, c⟩
  · intro s' hs
    cases hs with
    | closeSender hph => exact ⟨rfl, rfl, rfl⟩
  · intro i s' hs
    cases hs with
    | recvClosed pre post w hw hst hso hq => exact ⟨hso, hq⟩

theorem c2_witness :
    drainState.queue = [] ∧ drainState.delivered = drainState.submitted ∧
    ∀ j : Job, drainState.finished.count j = drainState.submitted.count j :=
  (@c2_shutdown_drains 1 drainState ⟨initState 1, drainTrace, rfl, drain_trace⟩).1 rfl

/-- C3: `ThreadPool::new(0)` always panics (`assert!(size > 0)` fails), and
for every positive size construction succeeds: a pool with zero consumers
is never silently constructed. -/
theorem c3_zero_size_panics :
    ThreadPool.new 0 = Except.error "assertion failed: size > 0" ∧
    (∀ n : Nat, 0 < n → ThreadPool.new n = Except.ok (initState n)) := by
  refine ⟨rfl, ?_⟩
  intro n hn
  unfold ThreadPool.new
  rw [if_pos hn]

theorem c3_witness : ThreadPool.new 3 = Except.ok (initState 3) :=
  c3_zero_size_panics.2 3 (by decide)

/-- C4: calling `ThreadPool::execute` after the sender has been taken by
`Drop` panics (`unwrap_or_else` on `None`) and never silently enqueues the
job: no submit transition exists from such a state. -/
theorem c4_execute_after_shutdown {s : PoolState} {j : Job}
    (h : s.senderOpen = false) :
    ThreadPool.execute s j = Except.error ExecPanic.senderGone ∧
    ∀ s', ¬ Step s (Label.submit j) s' := by
  constructor
  · unfold ThreadPool.execute
    rw [h]
    simp
  · intro s' hs
    cases hs with
    | submit _ _ hph hex =>
      obtain ⟨hso, -, -⟩ := execute_ok_inv hex
      rw [h] at hso
      cases hso

theorem c4_witness :
    ThreadPool.execute
        { initState 1 with senderOpen := false, phase := Phase.closing 0 } jA
      = Except.error ExecPanic.senderGone :=
  (c4_execute_after_shutdown rfl).1

/-- C5: the mutex guard is a temporary dropped when `recv` returns, so in
every reachable state an executing worker does not hold the lock, a busy
worker never prevents an idle worker from acquiring the free lock, and two
workers can be executing simultaneously: the pool is parallel, not
serialized. -/
theorem c5_lock_released_before_execution {n : Nat} {s : PoolState}
    (h : Reachable n s) :
    (∀ w ∈ s.workers, ∀ j : Job, w.status = WStatus.busy j → holdsLock w = false) ∧
    (∀ pre post (w : Worker), s.workers = pre ++ w :: post →
      w.status = WStatus.idle → (∀ w' ∈ s.workers, w'.status ≠ WStatus.locked) →
      ∃ s', Step s (Label.acquire pre.length) s') ∧
    (∃ s₂ : PoolState, Reachable 2 s₂ ∧
      s₂.workers.map Worker.status = [WStatus.busy jA, WStatus.busy jB]) := by
  have inv := reachable_inv h
  refine ⟨?_, ?_, scenario_parallel⟩
  · intro w hw j hst
    simp [holdsLock, hst]
  · intro pre post w hw hst hnl
    exact ⟨_, Step.acquire s pre post w hw hst hnl inv.noPoison⟩

theorem c5_witness : holdsLock ⟨0, 0, WStatus.busy jA, true⟩ = false :=
  (@c5_lock_released_before_execution 2 busyState
    ⟨initState 2, busyTrace, rfl, busy_trace⟩).1
    ⟨0, 0, WStatus.busy jA, true⟩ (by decide) jA rfl

/-- C6: a panicking job kills exactly its own worker — the step changes that
worker's status to dead and touches no other worker, the queue, the sender,
the phase, or the poison bit — the worker collection never grows (no
respawn), and concretely in a pool of two a normal job still completes next
to a panicking one, leaving capacity exactly one. -/
theorem c6_job_panic_isolated {n : Nat} {s : PoolState} (h : Reachable n s) :
    (∀ (i : Nat) (j : Job) s', Step s (Label.jobPanic i j) s' →
      ∃ pre w post, s.workers = pre ++ w :: post ∧ pre.length = i ∧
        w.status = WStatus.busy j ∧
        s'.workers = pre ++ { w with status := WStatus.dead } :: post ∧
        s'.queue = s.queue ∧ s'.senderOpen = s.senderOpen ∧
        s'.phase = s.phase ∧ s'.poisoned = false ∧
        s'.workers.length = s.workers.length) ∧
    s.workers.length = n ∧
    (∃ s₂ : PoolState, Reachable 2 s₂ ∧
      s₂.workers.map Worker.status = [WStatus.dead, WStatus.idle] ∧
      s₂.finished = [jB] ∧ s₂.panickedJobs = [jP] ∧ aliveCount s₂ = 1 ∧
      s₂.senderOpen = true) := by
  have inv := reachable_inv h
  refine ⟨?_, inv.len, ?_⟩
  · intro i j s' hs
    cases hs with
    | jobPanic pre post w _ hw hst hjp =>
      refine ⟨pre, w, post, hw, rfl, hst, rfl, rfl, rfl, rfl, ?_, ?_⟩
      · show (s.poisoned || holdsLock w) = false
        simp [inv.noPoison, holdsLock, hst]
      · rw [hw]
        simp
  · obtain ⟨s₂, h₂, a, b, c, d, -, e, -⟩ := scenario_panic
    exact ⟨s₂, h₂, a, b, c, d, e⟩

theorem c6_witness : panicState.workers.length = 2 ∧ aliveCount panicState = 1 := by
  have h := @c6_job_panic_isolated 2 panicState
    ⟨initState 2, panicTrace, rfl, panic_trace⟩
  exact ⟨h.2.1, by decide⟩

/-- C7: teardown drops the sender before any worker is joined, joins the
workers in construction order 0, 1, 2, …, and the drop is complete only
when every worker has exited normally and given up its handle. -/
theorem c7_teardown_order {n : Nat} {s₀ s : PoolState} {tr : List Label}
    (hnew : ThreadPool.new n = Except.ok s₀) (ht : Trace s₀ tr s) :
    joinLabels tr = List.range (joinedCount s) ∧
    (∀ t1 t2 (i : Nat), tr = t1 ++ Label.joinOk i :: t2 → Label.closeSender ∈ t1) ∧
    (∀ i, s.phase = Phase.closing i → s.senderOpen = false) ∧
    (dropComplete s → ∀ w ∈ s.workers, w.status = WStatus.done ∧ w.hasThread = false) := by
  have hs₀ : s₀ = initState n := by
    unfold ThreadPool.new at hnew
    split at hnew
    · cases hnew
      rfl
    · cases hnew
  subst hs₀
  have inv := inv_trace (inv_init n) ht
  refine ⟨?_, close_before_join ht rfl, ?_, dropComplete_all_done inv⟩
  · have h := (trace_joinLabels ht).2
    have h0 : joinedCount (initState n) = 0 := rfl
    rw [h0] at h
    rw [h, List.range_eq_range']
    norm_num
  · intro i hph
    exact sender_false_of_closing inv hph

theorem c7_witness : joinLabels drainTrace = List.range (joinedCount drainState) :=
  (c7_teardown_order (show ThreadPool.new 1 = Except.ok (initState 1) from rfl)
    drain_trace).1

/-- C8: for every positive `n`, `ThreadPool::new(n)` succeeds and builds
exactly `n` workers with ids `0..n-1` in order, each wired to the shared
receiver handle `0`, idle, and owning its thread handle. -/
theorem c8_new_constructs {n : Nat} (hn : 0 < n) :
    ∃ s : PoolState, ThreadPool.new n = Except.ok s ∧
      s.workers.length = n ∧
      s.workers.map Worker.id = List.range n ∧
      (∀ w ∈ s.workers, w.rx = 0 ∧ w.status = WStatus.idle ∧ w.hasThread = true) ∧
      s.senderOpen = true ∧ s.queue = [] := by
  refine ⟨initState n, ?_, ?_, (inv_init n).ids, ?_, rfl, rfl⟩
  · unfold ThreadPool.new
    rw [if_pos hn]
  · simp [initState]
  · intro w hw
    simp [initState, mkWorker] at hw
    obtain ⟨i, -, rfl⟩ := hw
    exact ⟨rfl, rfl, rfl⟩

theorem c8_witness :
    ∃ s : PoolState, ThreadPool.new 3 = Except.ok s ∧
      s.workers.length = 3 ∧
      s.workers.map Worker.id = List.range 3 ∧
      (∀ w ∈ s.workers, w.rx = 0 ∧ w.status = WStatus.idle ∧ w.hasThread = true) ∧
      s.senderOpen = true ∧ s.queue = [] :=
  c8_new_constructs (by decide)

/-- C9: every action a worker's own thread takes follows the loop state
machine (idle, acquire the lock, receive, run the job, loop) with exits
only at a closed channel or a panic; a worker that has exited takes no
further action; and the closure exit fires only when the sender is gone
and the queue has drained, after which the worker is done. -/
theorem c9_worker_loop_machine {s s' : PoolState} {l : Label} (hs : Step s l s') :
    (∀ i, workerActed l = some i →
      ∃ a b, statusAt s i = some a ∧ statusAt s' i = some b ∧ workerMachineStep a b) ∧
    (∀ i, workerActed l = some i →
      statusAt s i ≠ some WStatus.done ∧ statusAt s i ≠ some WStatus.dead) ∧
    (∀ i, l = Label.recvClosed i →
      s.senderOpen = false ∧ s.queue = [] ∧ statusAt s' i = some WStatus.done) := by
  cases hs with
  | submit _ j hph hex =>
    refine ⟨?_, ?_, ?_⟩
    · intro i hi
      simp [workerActed] at hi
    · intro i hi
      simp [workerActed] at hi
    · intro i hi
      simp at hi
  | acquire pre post w hw hst hnl hnp =>
    refine ⟨?_, ?_, ?_⟩
    · intro i hi
      simp [workerActed] at hi
      subst hi
      refine ⟨WStatus.idle, WStatus.locked, ?_, statusAt_decomp rfl, Or.inl ⟨rfl, rfl⟩⟩
      rw [statusAt_decomp hw, hst]
    · intro i hi
      simp [workerActed] at hi
      subst hi
      rw [statusAt_decomp hw, hst]
      exact ⟨by simp, by simp⟩
    · intro i hi
      simp at hi
  | lockPoison pre post w hw hst hnl hp =>
    refine ⟨?_, ?_, ?_⟩
    · intro i hi
      simp [workerActed] at hi
      subst hi
      refine ⟨WStatus.idle, WStatus.dead, ?_, statusAt_decomp rfl,
        Or.inr (Or.inr (Or.inr (Or.inr (Or.inr ⟨rfl, rfl⟩))))⟩
      rw [statusAt_decomp hw, hst]
    · intro i hi
      simp [workerActed] at hi
      subst hi
      rw [statusAt_decomp hw, hst]
      exact ⟨by simp, by simp⟩
    · intro i hi
      simp at hi
  | recvOk pre post w j rest hw hst hq =>
    refine ⟨?_, ?_, ?_⟩
    · intro i hi
      simp [workerActed] at hi
      subst hi
      refine ⟨WStatus.locked, WStatus.busy j, ?_, statusAt_decomp rfl,
        Or.inr (Or.inl ⟨j, rfl, rfl⟩)⟩
      rw [statusAt_decomp hw, hst]
    · intro i hi
      simp [workerActed] at hi
      subst hi
      rw [statusAt_decomp hw, hst]
      exact ⟨by simp, by simp⟩
    · intro i hi
      simp at hi
  | recvClosed pre post w hw hst hso hq =>
    refine ⟨?_, ?_, ?_⟩
    · intro i hi
      simp [workerActed] at hi
      subst hi
      refine ⟨WStatus.locked, WStatus.done, ?_, statusAt_decomp rfl,
        Or.inr (Or.inr (Or.inl ⟨rfl, rfl⟩))⟩
      rw [statusAt_decomp hw, hst]
    · intro i hi
      simp [workerActed] at hi
      subst hi
      rw [statusAt_decomp hw, hst]
      exact ⟨by simp, by simp⟩
    · intro i hi
      simp at hi
      subst hi
      exact ⟨hso, hq, statusAt_decomp rfl⟩
  | finish pre post w j hw hst hjp =>
    refine ⟨?_, ?_, ?_⟩
    · intro i hi
      simp [workerActed] at hi
      subst hi
      refine ⟨WStatus.busy j, WStatus.idle, ?_, statusAt_decomp rfl,
        Or.inr (Or.inr (Or.inr (Or.inl ⟨j, rfl, rfl⟩)))⟩
      rw [statusAt_decomp hw, hst]
    · intro i hi
      simp [workerActed] at hi
      subst hi
      rw [statusAt_decomp hw, hst]
      exact ⟨by simp, by simp⟩
    · intro i hi
      simp at hi
  | jobPanic pre post w j hw hst hjp =>
    refine ⟨?_, ?_, ?_⟩
    · intro i hi
      simp [workerActed] at hi
      subst hi
      refine ⟨WStatus.busy j, WStatus.dead, ?_, statusAt_decomp rfl,
        Or.inr (Or.inr (Or.inr (Or.inr (Or.inl ⟨j, rfl, rfl⟩))))⟩
      rw [statusAt_decomp hw, hst]
    · intro i hi
      simp [workerActed] at hi
      subst hi
      rw [statusAt_decomp hw, hst]
      exact ⟨by simp, by simp⟩
    · intro i hi
      simp at hi
  | closeSender hph =>
    refine ⟨?_, ?_, ?_⟩
    · intro i hi
      simp [workerActed] at hi
    · intro i hi
      simp [workerActed] at hi
    · intro i hi
      simp at hi
  | joinOk pre post w hw hph hdone hht =>
    refine ⟨?_, ?_, ?_⟩
    · intro i hi
      simp [workerActed] at hi
    · intro i hi
      simp [workerActed] at hi
    · intro i hi
      simp at hi
  | joinPanicked pre post w hw hph hdead hht =>
    refine ⟨?_, ?_, ?_⟩
    · intro i hi
      simp [workerActed] at hi
    · intro i hi
      simp [workerActed] at hi
    · intro i hi
      simp at hi

/-- A one-worker pool mid-drop whose worker sits in `recv` on the drained,
closed channel. -/
def c9sBefore : PoolState :=
  { initState 1 with
    workers := [⟨0, 0, WStatus.locked, true⟩]
    senderOpen := false
    phase := Phase.closing 0 }

/-- The same pool after `recv` reported disconnection and the loop broke. -/
def c9sAfter : PoolState :=
  { c9sBefore with workers := [⟨0, 0, WStatus.done, true⟩] }

theorem c9_witness :
    c9sBefore.senderOpen = false ∧ c9sBefore.queue = [] ∧
    statusAt c9sAfter 0 = some WStatus.done :=
  (c9_worker_loop_machine (Step.recvClosed c9sBefore [] []
    ⟨0, 0, WStatus.locked, true⟩ rfl rfl rfl rfl)).2.2 0 rfl

/-- C10: a job's panic can never poison the receiver mutex — in every
reachable state the poison bit is clear, so `lock().unwrap()` in the other
workers never panics (the poisoned-lock transition is never enabled) —
because a busy worker holds no lock: the guard died when `recv` returned. -/
theorem c10_mutex_never_poisoned {n : Nat} {s : PoolState} (h : Reachable n s) :
    s.poisoned = false ∧
    (∀ i s', ¬ Step s (Label.lockPoisonPanic i) s') ∧
    (∀ w ∈ s.workers, ∀ j : Job, w.status = WStatus.busy j → holdsLock w = false) := by
  have inv := reachable_inv h
  refine ⟨inv.noPoison, ?_, ?_⟩
  · intro i s' hs
    cases hs with
    | lockPoison pre post w hw hst hnl hp =>
      rw [inv.noPoison] at hp
      cases hp
  · intro w hw j hst
    simp [holdsLock, hst]

theorem c10_witness : panicState.poisoned = false :=
  (@c10_mutex_never_poisoned 2 panicState
    ⟨initState 2, panicTrace, rfl, panic_trace⟩).1
